import Mathlib

/-!
Verification of `src/bond_index.py` (simulated bond index construction).

The script is embedded shallowly over `ℚ` (the Python floats are modelled as
exact rationals).  A row of a pandas price table is a function `String → ℚ`
from maturity labels to values; the ordered list of maturity labels (the keys
of the `weights` dict, over which every Python loop in the simulator
iterates) is passed explicitly as `bonds : List String`.

Python raises `ZeroDivisionError` on division by zero; the total functions
below use Lean's `x / 0 = 0` convention, and a separate fallible embedding
(`simulateE`, `bond_priceE`, returning `Option`) records exactly where the
Python code would raise.
-/

namespace BondIndex

/-- A row of a price (or yield) table: maturity label to value. -/
abbrev Row := String → ℚ

/-- Embedding of `bond_price` (src/bond_index.py line 54):
`100 / ((1 + yield_percent / 100) ** duration_years)`. -/
def bond_price (yield_percent : ℚ) (duration_years : ℕ) : ℚ :=
  100 / ((1 + yield_percent / 100) ^ duration_years)

/-- Embedding of the `durations` dict (line 57): `{'1Y': 1, '5Y': 5, '10Y': 10}`.
The Python dict raises `KeyError` on other labels; the script only ever looks
up the three labels above, so the default `0` branch is never exercised. -/
def durations (label : String) : ℕ :=
  if label = "1Y" then 1 else if label = "5Y" then 5 else if label = "10Y" then 10 else 0

/-- Embedding of the `prices_df` construction (lines 58-61): every cell of the
yield table is mapped through `bond_price` with the fixed per-label duration.
A table is a list of rows. -/
def prices_df (yrows : List Row) : List Row :=
  yrows.map (fun row => fun b => bond_price (row b) (durations b))

/-- Portfolio value of holdings `h` at price row `p` (line 80):
`sum(holdings[bond] * curr[bond] for bond in holdings)`. -/
def stepValue (bonds : List String) (h p : Row) : ℚ :=
  (bonds.map (fun b => h b * p b)).sum

/-- Desired holdings restoring target weights at value `value` and prices `p`
(lines 83-84): `desired_value[bond] / curr[bond]` with
`desired_value[bond] = value * weights[bond]`. -/
def desiredHoldings (w : Row) (value : ℚ) (p : Row) : Row :=
  fun b => value * w b / p b

/-- Turnover of a rebalance from holdings `hOld` to `hNew` at prices `p`
(line 87): `sum(abs(new_holdings[bond] - holdings[bond]) * curr[bond] for bond in weights)`. -/
def stepTurnover (bonds : List String) (hOld hNew p : Row) : ℚ :=
  (bonds.map (fun b => |hNew b - hOld b| * p b)).sum

/-- One iteration of the simulation loop body (lines 79-93), starting from
holdings `h` at current price row `p`.  Produces the new holdings, the
turnover, and the reported (cost-adjusted) portfolio value
`value - turnover * transaction_cost`. -/
def simStep (bonds : List String) (w : Row) (tc : ℚ) (h p : Row) : Row × ℚ × ℚ :=
  let value := stepValue bonds h p
  let nh := desiredHoldings w value p
  let t := stepTurnover bonds h nh p
  (nh, t, value - t * tc)

/-- The simulation loop (lines 71-93) threaded over the remaining price rows,
starting from holdings `h`; each element of the result is the triple produced
by `simStep` at that row. -/
def simSteps (bonds : List String) (w : Row) (tc : ℚ) : Row → List Row → List (Row × ℚ × ℚ)
  | _, [] => []
  | h, p :: rest =>
    let s := simStep bonds w tc h p
    s :: simSteps bonds w tc s.1 rest

/-- Initial holdings bought at the first price row (line 77):
`(value * weights[bond]) / prev[bond]` with `value = initial_investment`. -/
def initHoldings (init : ℚ) (w : Row) (p0 : Row) : Row :=
  fun b => init * w b / p0 b

/-- Embedding of `simulate_bond_index` (lines 66-95).  The loop runs over
rows `1 .. len(prices) - 1`; at the first iteration the holdings are bought
at row 0, and each iteration appends the cost-adjusted value.  (When the
price table has fewer than two rows the loop body never runs and the result
is empty; when `bonds = []` both the Python loop and this embedding report
`0` at every step, so the outputs agree there too.) -/
def simulate_bond_index (init : ℚ) (bonds : List String) (prices : List Row)
    (weights : Row) (transaction_cost : ℚ) : List ℚ :=
  match prices with
  | [] => []
  | p0 :: rest =>
    (simSteps bonds weights transaction_cost (initHoldings init weights p0) rest).map
      (fun s => s.2.2)

/-! Fallible embedding: Python raises `ZeroDivisionError` exactly when a
divisor is zero.  The only divisions in the simulator are the unit
computations `value * w / price`, so a step fails iff some current price on a
weighted maturity is zero. -/

/-- Fallible dict comprehension for holdings (lines 77 and 83-84): fails iff
some weighted maturity has price zero in `p`, otherwise returns the holdings
function. -/
def holdingsE (value : ℚ) (w : Row) (bonds : List String) (p : Row) : Option Row :=
  if ∀ b ∈ bonds, p b ≠ 0 then some (fun b => value * w b / p b) else none

/-- Fallible simulation loop: the first failing row aborts the whole run
(the Python exception propagates). -/
def simStepsE (bonds : List String) (w : Row) (tc : ℚ) : Row → List Row → Option (List ℚ)
  | _, [] => some []
  | h, p :: rest =>
    let value := stepValue bonds h p
    match holdingsE value w bonds p with
    | none => none
    | some nh =>
      (simStepsE bonds w tc nh rest).map
        (fun l => (value - stepTurnover bonds h nh p * tc) :: l)

/-- Fallible embedding of `simulate_bond_index`: with fewer than two price
rows the loop never runs (no division is performed) and the empty list is
returned; otherwise the initial purchase divides by row 0 and every later
row is divided by in turn. -/
def simulateE (init : ℚ) (bonds : List String) (w : Row) (tc : ℚ) :
    List Row → Option (List ℚ)
  | [] => some []
  | [_] => some []
  | p0 :: r1 :: rest =>
    match holdingsE init w bonds p0 with
    | none => none
    | some h0 => simStepsE bonds w tc h0 (r1 :: rest)

/-- Fallible embedding of `bond_price`: Python raises `ZeroDivisionError`
when the denominator `(1 + yield_percent / 100) ** duration_years` is zero. -/
def bond_priceE (yield_percent : ℚ) (duration_years : ℕ) : Option ℚ :=
  let denom := (1 + yield_percent / 100) ^ duration_years
  if denom = 0 then none else some (100 / denom)

/-! The benchmark normalizer (lines 108-109):
`sp500_returns = sp500.pct_change().dropna()` and
`sp500_index = (1 + sp500_returns).cumprod() * initial_investment`.
The subsequent `.loc[prices_df.index[1:]]` re-alignment (line 110) is the
`restrictTo` operation modelled in the resampling section below. -/

/-- Embedding of `pct_change().dropna()` on a series: the month-over-month
fractional change `p_j / p_(j-1) - 1`, with the undefined first entry
dropped. -/
def pct_change (l : List ℚ) : List ℚ :=
  (l.zip l.tail).map (fun pr => pr.2 / pr.1 - 1)

/-- Running cumulative product with accumulator `acc` (pandas `cumprod`). -/
def cumprod (acc : ℚ) : List ℚ → List ℚ
  | [] => []
  | x :: xs => (acc * x) :: cumprod (acc * x) xs

/-- Embedding of the benchmark normalizer `sp500_index` (lines 108-109):
cumulative product of `1 + return` scaled by the initial capital. -/
def sp500_index (init : ℚ) (sp : List ℚ) : List ℚ :=
  (cumprod 1 ((pct_change sp).map (fun r => 1 + r))).map (fun c => c * init)

/-! Resampling and alignment (lines 46-48):
`yields_df = yields_df.resample('M').mean().dropna()`,
`sp500 = sp500.resample('M').last()`, `sp500 = sp500.loc[yields_df.index]`.

A raw series is a list of (date, value) observations with dates as naturals;
`mo : ℕ → ℕ` maps a date to its month bucket.  `resample('M').mean()`
produces one row per month of the spanned range, `NaN` where a column has no
observation that month, and `dropna()` then removes every row containing a
`NaN`; the surviving months are therefore exactly those in which every
column has at least one observation, and the surviving values are the
per-month means.  The embedding below builds that final table directly (row
order inherited from observation order; the claims verified here are about
membership and values, not row order).  `none` models `NaN`. -/

/-- One raw series: (date, value) observations. -/
abbrev Obs := List (ℕ × ℚ)

/-- The values a series observes inside month `m`. -/
def monthObs (mo : ℕ → ℕ) (s : Obs) (m : ℕ) : List ℚ :=
  ((s.filter (fun p => mo p.1 = m)).map Prod.snd)

/-- Monthly mean of a series, `none` (NaN) when the month has no
observation — the cell `resample('M').mean()` puts in that row. -/
def monthMeanO (mo : ℕ → ℕ) (s : Obs) (m : ℕ) : Option ℚ :=
  match monthObs mo s m with
  | [] => none
  | l => some (l.sum / l.length)

/-- All observation dates across the columns of the yields table. -/
def allDates (cols : List Obs) : List ℕ :=
  (cols.map (fun c => c.map Prod.fst)).flatten

/-- The month index of `yields_df.resample('M').mean().dropna()` (line 46):
the months carrying at least one observation of every column.  (Months of
the spanned range in which some column has no observation are exactly the
rows `dropna()` removes, so filtering the observed months is equivalent.) -/
def yieldsIndex (mo : ℕ → ℕ) (cols : List Obs) : List ℕ :=
  (((allDates cols).map mo).dedup).filter (fun m => cols.all (fun c => !(monthObs mo c m).isEmpty))

/-- The resampled yields table (line 46): one row per surviving month, one
monthly-mean cell per column. -/
def yields_table (mo : ℕ → ℕ) (cols : List Obs) : List (ℕ × List (Option ℚ)) :=
  (yieldsIndex mo cols).map (fun m => (m, cols.map (fun c => monthMeanO mo c m)))

/-- Embedding of `resample('M').last()` for one month: the value carried by
the latest-dated observation of the month, `none` (NaN) when there is
none. -/
def monthLast (mo : ℕ → ℕ) (s : Obs) (m : ℕ) : Option ℚ :=
  match s.filter (fun p => mo p.1 = m) with
  | [] => none
  | x :: xs => some ((xs.foldl (fun best q => if best.1 ≤ q.1 then q else best) x).2)

/-- Embedding of `sp500.resample('M').last()` followed by
`sp500.loc[yields_df.index]` (lines 47-48): the benchmark is re-indexed to
exactly the given month labels, one row per label in order, regardless of
which months the benchmark itself observed. -/
def restrictTo (mo : ℕ → ℕ) (s : Obs) (idx : List ℕ) : List (ℕ × Option ℚ) :=
  idx.map (fun m => (m, monthLast mo s m))

/-! Specification-side recurrence for claim C1, written from the claim's
words (initial units, revalue, desired units, cost = rate times turnover,
report value minus cost, replace units), to be compared with the embedding
of the code. -/

/-- The claim's initial units: `units[b] = (initial_capital * weight[b]) / price_0[b]`. -/
def specUnits0 (init : ℚ) (w p0 : Row) : Row :=
  fun b => init * w b / p0 b

/-- One step of the claim's recurrence: revalue, rebalance, charge
`cost = rate * sum |desired - units| * price`, report `value - cost`. -/
def specNext (bonds : List String) (w : Row) (rate : ℚ) (units p : Row) : Row × ℚ :=
  let value := (bonds.map (fun b => units b * p b)).sum
  let desired : Row := fun b => value * w b / p b
  let cost := rate * (bonds.map (fun b => |desired b - units b| * p b)).sum
  (desired, value - cost)

/-- The claim's reported value sequence, one value per price row after the
first. -/
def specValues (bonds : List String) (w : Row) (rate : ℚ) : Row → List Row → List ℚ
  | _, [] => []
  | u, p :: rest =>
    let s := specNext bonds w rate u p
    s.2 :: specValues bonds w rate s.1 rest

/-! Helper lemmas. -/

theorem sum_map_congr {l : List String} {f g : String → ℚ}
    (h : ∀ b ∈ l, f b = g b) : (l.map f).sum = (l.map g).sum := by
  induction l with
  | nil => rfl
  | cons a t ih =>
    simp only [List.map_cons, List.sum_cons]
    rw [h a (by simp), ih (fun b hb => h b (by simp [hb]))]

theorem sum_map_eq_zero {l : List String} {f : String → ℚ}
    (h : ∀ b ∈ l, f b = 0) : (l.map f).sum = 0 := by
  rw [sum_map_congr (g := fun _ => 0) h]
  simp

theorem simSteps_length (bonds : List String) (w : Row) (tc : ℚ) (rows : List Row) :
    ∀ h : Row, (simSteps bonds w tc h rows).length = rows.length := by
  induction rows with
  | nil => intro h; rfl
  | cons p rest ih => intro h; simp [simSteps, ih]

theorem simSteps_map_spec (bonds : List String) (w : Row) (tc : ℚ) (rows : List Row) :
    ∀ h : Row,
    (simSteps bonds w tc h rows).map (fun s => s.2.2) = specValues bonds w tc h rows := by
  induction rows with
  | nil => intro h; rfl
  | cons p rest ih =>
    intro h
    simp only [simSteps, specValues, List.map_cons, List.cons.injEq]
    exact ⟨by simp [simStep, specNext, stepValue, stepTurnover, desiredHoldings, mul_comm],
      ih _⟩

theorem getD_default_irrel {α : Type} (l : List α) (i : ℕ) (d₁ d₂ : α)
    (h : i < l.length) : l.getD i d₁ = l.getD i d₂ := by
  rw [List.getD_eq_getElem l d₁ h, List.getD_eq_getElem l d₂ h]

theorem simStep_def (bonds : List String) (w : Row) (tc : ℚ) (h p : Row) :
    simStep bonds w tc h p =
      (desiredHoldings w (stepValue bonds h p) p,
       stepTurnover bonds h (desiredHoldings w (stepValue bonds h p) p) p,
       stepValue bonds h p
         - stepTurnover bonds h (desiredHoldings w (stepValue bonds h p) p) p * tc) := rfl

theorem stepValue_balanced (bonds : List String) (w : Row) {q p h : Row} {V : ℚ}
    (hq : ∀ b ∈ bonds, q b ≠ 0) (hpq : ∀ b ∈ bonds, p b = q b)
    (hh : ∀ b ∈ bonds, h b = V * w b / q b) :
    stepValue bonds h p = V * (bonds.map w).sum := by
  unfold stepValue
  rw [sum_map_congr (g := fun b => V * w b)
    (fun b hb => by rw [hh b hb, hpq b hb, div_mul_cancel₀ _ (hq b hb)])]
  exact List.sum_map_mul_left bonds w V

theorem stepTurnover_balanced (bonds : List String) (w : Row) {q p h : Row} {V : ℚ}
    (hw : (bonds.map w).sum = 1) (hq : ∀ b ∈ bonds, q b ≠ 0)
    (hpq : ∀ b ∈ bonds, p b = q b) (hh : ∀ b ∈ bonds, h b = V * w b / q b) :
    stepTurnover bonds h (desiredHoldings w (stepValue bonds h p) p) p = 0 := by
  have hv : stepValue bonds h p = V := by
    rw [stepValue_balanced bonds w hq hpq hh, hw, mul_one]
  apply sum_map_eq_zero
  intro b hb
  have hd : desiredHoldings w (stepValue bonds h p) p b = h b := by
    unfold desiredHoldings
    rw [hv, hh b hb, hpq b hb]
  rw [hd, sub_self, abs_zero, zero_mul]

theorem simSteps_turnover_zero_aux (bonds : List String) (w : Row) (tc : ℚ)
    (hw : (bonds.map w).sum = 1) :
    ∀ (rows : List Row) (h q : Row) (V : ℚ),
      (∀ b ∈ bonds, q b ≠ 0) → (∀ r ∈ rows, ∀ b ∈ bonds, r b ≠ 0) →
      (∀ b ∈ bonds, h b = V * w b / q b) →
      ∀ j, j < rows.length →
        (∀ b ∈ bonds, rows.getD j q b = (q :: rows).getD j q b) →
        ((simSteps bonds w tc h rows).getD j (h, 0, 0)).2.1 = 0 := by
  intro rows
  induction rows with
  | nil => intro h q V _ _ _ j hj; exact absurd hj (by simp)
  | cons p rest ih =>
    intro h q V hq hrows hh j hj heq
    match j with
    | 0 =>
      have hpq : ∀ b ∈ bonds, p b = q b := by
        intro b hb
        have := heq b hb
        simpa using this
      simp only [simSteps, List.getD_cons_zero, simStep_def]
      exact stepTurnover_balanced bonds w hw hq hpq hh
    | j + 1 =>
      have hj' : j < rest.length := by simpa using hj
      simp only [simSteps, List.getD_cons_succ]
      have hstep :
          ((simSteps bonds w tc (simStep bonds w tc h p).1 rest).getD j
            ((simStep bonds w tc h p).1, 0, 0)).2.1 = 0 := by
        refine ih (simStep bonds w tc h p).1 p (stepValue bonds h p)
          (hrows p (by simp)) (fun r hr => hrows r (by simp [hr]))
          (fun b _ => rfl) j hj' ?_
        intro b hb
        have hhere := heq b hb
        rw [List.getD_cons_succ, List.getD_cons_succ] at hhere
        rw [getD_default_irrel rest j p q hj',
          getD_default_irrel (p :: rest) j p q (Nat.lt_succ_of_lt hj')]
        exact hhere
      rw [getD_default_irrel _ j (h, 0, 0) ((simStep bonds w tc h p).1, 0, 0)
        (by rw [simSteps_length]; exact hj')]
      exact hstep

theorem simSteps_const_aux (bonds : List String) (w : Row) (tc : ℚ) (p : Row) (V : ℚ)
    (hw : (bonds.map w).sum = 1) (hp : ∀ b ∈ bonds, p b ≠ 0) :
    ∀ (rows : List Row) (h : Row),
      (∀ r ∈ rows, ∀ b ∈ bonds, r b = p b) →
      (∀ b ∈ bonds, h b = V * w b / p b) →
      ∀ v ∈ (simSteps bonds w tc h rows).map (fun s => s.2.2), v = V := by
  intro rows
  induction rows with
  | nil => intro h _ _ v hv; simp [simSteps] at hv
  | cons r rest ih =>
    intro h hr hh v hv
    have hrq : ∀ b ∈ bonds, r b = p b := hr r (by simp)
    have hv' : stepValue bonds h r = V := by
      rw [stepValue_balanced bonds w hp hrq hh, hw, mul_one]
    simp only [simSteps, List.map_cons, List.mem_cons] at hv
    rcases hv with hv | hv
    · rw [hv, simStep_def]
      have ht := stepTurnover_balanced bonds w hw hp hrq hh
      simp only [ht, zero_mul, sub_zero]
      exact hv'
    · refine ih (simStep bonds w tc h r).1 (fun r' hr' => hr r' (by simp [hr'])) ?_ v hv
      intro b hb
      rw [simStep_def]
      show stepValue bonds h r * w b / r b = V * w b / p b
      rw [hv', hrq b hb]

/-! Claim theorems. -/

/-- C1: for every price table with at least two rows (all prices on the
weighted maturities nonzero), `simulate_bond_index` returns exactly
`rows - 1` values, and the value sequence is exactly the one generated by
the claimed recurrence (initial units from row 0, then revalue / rebalance /
charge `rate * turnover` / report `value - cost` at every later row); and on
the concrete table `[[100,100,100],[110,105,95]]` with weights
`{A: 0.5, B: 0.3, C: 0.2}`, capital `1000` and zero cost the output is the
single value `1000*0.5*1.10 + 1000*0.3*1.05 + 1000*0.2*0.95`. -/
theorem claim_C1 :
    (∀ (init : ℚ) (bonds : List String) (w : Row) (tc : ℚ) (p0 : Row) (rest : List Row),
        rest ≠ [] → (∀ r ∈ p0 :: rest, ∀ b ∈ bonds, r b ≠ 0) →
        (simulate_bond_index init bonds (p0 :: rest) w tc).length = (p0 :: rest).length - 1 ∧
        simulate_bond_index init bonds (p0 :: rest) w tc
          = specValues bonds w tc (specUnits0 init w p0) rest) ∧
    simulate_bond_index 1000 ["A", "B", "C"]
        [fun b => if b = "A" then 100 else if b = "B" then 100 else 100,
         fun b => if b = "A" then 110 else if b = "B" then 105 else 95]
        (fun b => if b = "A" then 1 / 2 else if b = "B" then 3 / 10 else 1 / 5) 0
      = [1000 * (1 / 2) * (110 / 100) + 1000 * (3 / 10) * (105 / 100)
          + 1000 * (1 / 5) * (95 / 100)] := by
  constructor
  · intro init bonds w tc p0 rest _ _
    refine ⟨by simp [simulate_bond_index, simSteps_length], ?_⟩
    simpa [simulate_bond_index, specUnits0, initHoldings] using
      simSteps_map_spec bonds w tc rest (initHoldings init w p0)
  · simp [simulate_bond_index, simSteps, simStep, stepValue, stepTurnover,
      desiredHoldings, initHoldings]
    norm_num

/-- Witness for C1 at a concrete one-maturity table. -/
theorem claim_C1_witness :
    (simulate_bond_index 1000 ["A"] [fun _ => 100, fun _ => 110] (fun _ => 1) 0).length
        = ([fun _ => 100, fun _ => 110] : List Row).length - 1 ∧
    simulate_bond_index 1000 ["A"] [fun _ => 100, fun _ => 110] (fun _ => 1) 0
      = specValues ["A"] (fun _ => 1) 0
          (specUnits0 1000 (fun _ => 1) (fun _ => 100)) [fun _ => 110] :=
  claim_C1.1 1000 ["A"] (fun _ => 1) 0 (fun _ => 100) [fun _ => 110]
    (by simp) (by decide)

/-- C3: for every yield with nonzero discount base, `bond_price` computes
`100 / (1 + y/100)^d` at the fixed per-label durations `1Y→1`, `5Y→5`,
`10Y→10`, and `prices_df` applies `bond_price` independently to every
(row, maturity) cell of the yield table with the label's duration. -/
theorem claim_C3 : ∀ y : ℚ, 1 + y / 100 ≠ 0 →
    (∀ lbl ∈ ["1Y", "5Y", "10Y"],
        bond_price y (durations lbl) = 100 / (1 + y / 100) ^ durations lbl) ∧
    durations "1Y" = 1 ∧ durations "5Y" = 5 ∧ durations "10Y" = 10 ∧
    ∀ (yrows : List Row) (j : ℕ) (b : String), j < yrows.length →
      (prices_df yrows).getD j (fun _ => 0) b
        = bond_price (yrows.getD j (fun _ => 0) b) (durations b) := by
  intro y _
  refine ⟨fun lbl _ => rfl, rfl, rfl, rfl, ?_⟩
  intro yrows j b hj
  rw [List.getD_eq_getElem?_getD, List.getD_eq_getElem?_getD, prices_df,
    List.getElem?_map, List.getElem?_eq_getElem hj]
  rfl

/-- Witness for C3 at yield 3. -/
theorem claim_C3_witness :
    (∀ lbl ∈ ["1Y", "5Y", "10Y"],
        bond_price 3 (durations lbl) = 100 / (1 + (3 : ℚ) / 100) ^ durations lbl) ∧
    durations "1Y" = 1 ∧ durations "5Y" = 5 ∧ durations "10Y" = 10 ∧
    ∀ (yrows : List Row) (j : ℕ) (b : String), j < yrows.length →
      (prices_df yrows).getD j (fun _ => 0) b
        = bond_price (yrows.getD j (fun _ => 0) b) (durations b) :=
  claim_C3 3 (by norm_num)

/-- C4 counterexample: at duration `0` the price is constantly `100`, so it
is not strictly decreasing in the yield (the claim asserts strict decrease
for every duration_years >= 0). -/
theorem claim_C4_cex : (0 : ℚ) < 1 ∧ ¬ bond_price 1 0 < bond_price 0 0 := by
  constructor
  · norm_num
  · intro h
    simp [bond_price] at h

/-- C4 amended: `bond_price` is strictly positive for every yield above
`-100` and every duration (including `0`), and it is strictly decreasing in
the yield for every duration of at least one year (at duration `0` it is
the constant `100`, so strict decrease fails there). -/
theorem claim_C4 :
    (∀ (y : ℚ) (d : ℕ), -100 < y → 0 < bond_price y d) ∧
    (∀ (y₁ y₂ : ℚ) (d : ℕ), -100 < y₁ → y₁ < y₂ → 1 ≤ d →
      bond_price y₂ d < bond_price y₁ d) := by
  constructor
  · intro y d hy
    have hx : 0 < 1 + y / 100 := by linarith
    exact div_pos (by norm_num) (pow_pos hx d)
  · intro y₁ y₂ d hy₁ hlt hd
    have ha : 0 < 1 + y₁ / 100 := by linarith
    have hab : 1 + y₁ / 100 < 1 + y₂ / 100 := by linarith
    have hpow : (1 + y₁ / 100) ^ d < (1 + y₂ / 100) ^ d :=
      pow_lt_pow_left₀ hab (le_of_lt ha) (by omega)
    exact div_lt_div_of_pos_left (by norm_num) (pow_pos ha d) hpow

/-- Witness for the amended C4 at yields 0 < 1 and duration 5. -/
theorem claim_C4_witness :
    0 < bond_price 0 5 ∧ bond_price 1 5 < bond_price 0 5 :=
  ⟨claim_C4.1 0 5 (by norm_num), claim_C4.2 0 1 5 (by norm_num) (by norm_num) (by norm_num)⟩

/-- C10: with fewer than two price rows the loop body never runs:
`simulate_bond_index` returns the empty sequence, and the fallible embedding
confirms no division is ever attempted (no failure), for any weights and
cost rate. -/
theorem claim_C10 : ∀ (init : ℚ) (bonds : List String) (w : Row) (tc : ℚ),
    simulate_bond_index init bonds [] w tc = [] ∧
    simulateE init bonds w tc [] = some [] ∧
    ∀ p : Row, simulate_bond_index init bonds [p] w tc = []
      ∧ simulateE init bonds w tc [p] = some [] :=
  fun _ _ _ _ => ⟨rfl, rfl, fun _ => ⟨rfl, rfl⟩⟩

/-- C2: after a rebalancing step the new units are sized to the pre-cost
value: `units[b] * price[b] = value_pre_cost * weight[b]` for every weighted
maturity with nonzero price; and (for weights summing to 1) the market value
of the post-step holdings exceeds the reported (cost-adjusted) value by
exactly the cost deducted at that step. -/
theorem claim_C2 : ∀ (bonds : List String) (w : Row) (tc : ℚ) (h p : Row),
    (∀ b ∈ bonds, p b ≠ 0) →
    (∀ b ∈ bonds, (simStep bonds w tc h p).1 b * p b = stepValue bonds h p * w b) ∧
    ((bonds.map w).sum = 1 →
      stepValue bonds (simStep bonds w tc h p).1 p
        = (simStep bonds w tc h p).2.2 + (simStep bonds w tc h p).2.1 * tc) := by
  intro bonds w tc h p hp
  have hfirst : ∀ b ∈ bonds,
      (simStep bonds w tc h p).1 b * p b = stepValue bonds h p * w b := by
    intro b hb
    rw [simStep_def]
    show stepValue bonds h p * w b / p b * p b = stepValue bonds h p * w b
    rw [div_mul_cancel₀ _ (hp b hb)]
  refine ⟨hfirst, ?_⟩
  intro hw
  have hL : stepValue bonds (simStep bonds w tc h p).1 p = stepValue bonds h p :=
    calc stepValue bonds (simStep bonds w tc h p).1 p
        = (bonds.map (fun b => stepValue bonds h p * w b)).sum := sum_map_congr hfirst
      _ = stepValue bonds h p * (bonds.map w).sum := List.sum_map_mul_left bonds w _
      _ = stepValue bonds h p := by rw [hw, mul_one]
  rw [hL, simStep_def]
  ring

/-- Witness for C2: one maturity, price 100, unit weight. -/
theorem claim_C2_witness :
    (∀ b ∈ ["A"],
      (simStep ["A"] (fun _ => 1) (1 / 1000) (fun _ => 5) (fun _ => 100)).1 b
          * (fun _ : String => (100 : ℚ)) b
        = stepValue ["A"] (fun _ => 5) (fun _ => 100) * (fun _ : String => (1 : ℚ)) b) ∧
    ((["A"].map (fun _ : String => (1 : ℚ))).sum = 1 →
      stepValue ["A"] (simStep ["A"] (fun _ => 1) (1 / 1000) (fun _ => 5) (fun _ => 100)).1
          (fun _ => 100)
        = (simStep ["A"] (fun _ => 1) (1 / 1000) (fun _ => 5) (fun _ => 100)).2.2
          + (simStep ["A"] (fun _ => 1) (1 / 1000) (fun _ => 5) (fun _ => 100)).2.1
            * (1 / 1000)) :=
  claim_C2 ["A"] (fun _ => 1) (1 / 1000) (fun _ => 5) (fun _ => 100) (by norm_num)

/-- C5: in a simulation whose weights sum to 1 and whose prices are nonzero
on the weighted maturities, whenever the price row at a step agrees (on the
weighted maturities) with the previous row, the turnover computed at that
step is exactly zero, so zero cost is deducted there — for any
transaction-cost rate, in particular any nonzero one. -/
theorem claim_C5 : ∀ (bonds : List String) (w : Row) (tc init : ℚ)
    (p0 : Row) (rest : List Row),
    (bonds.map w).sum = 1 →
    (∀ r ∈ p0 :: rest, ∀ b ∈ bonds, r b ≠ 0) →
    ∀ j, j < rest.length →
      (∀ b ∈ bonds, rest.getD j p0 b = (p0 :: rest).getD j p0 b) →
      ((simSteps bonds w tc (initHoldings init w p0) rest).getD j
          (initHoldings init w p0, 0, 0)).2.1 = 0
      ∧ ((simSteps bonds w tc (initHoldings init w p0) rest).getD j
          (initHoldings init w p0, 0, 0)).2.1 * tc = 0 := by
  intro bonds w tc init p0 rest hw hnz j hj heq
  have ht := simSteps_turnover_zero_aux bonds w tc hw rest
    (initHoldings init w p0) p0 init
    (hnz p0 (by simp)) (fun r hr => hnz r (by simp [hr]))
    (fun b _ => rfl) j hj heq
  exact ⟨ht, by rw [ht, zero_mul]⟩

/-- Witness for C5: one maturity, constant price 100 across both rows. -/
theorem claim_C5_witness :
    ((simSteps ["A"] (fun _ => 1) (1 / 1000)
        (initHoldings 1000 (fun _ => 1) (fun _ => 100)) [fun _ => 100]).getD 0
        (initHoldings 1000 (fun _ => 1) (fun _ => 100), 0, 0)).2.1 = 0
    ∧ ((simSteps ["A"] (fun _ => 1) (1 / 1000)
        (initHoldings 1000 (fun _ => 1) (fun _ => 100)) [fun _ => 100]).getD 0
        (initHoldings 1000 (fun _ => 1) (fun _ => 100), 0, 0)).2.1 * (1 / 1000) = 0 :=
  claim_C5 ["A"] (fun _ => 1) (1 / 1000) 1000 (fun _ => 100) [fun _ => 100]
    (by norm_num) (by norm_num) 0 (by norm_num) (fun b _ => rfl)

/-- C6 counterexample: the claim quantifies over every weight mapping, but
with the single weight `1/2` (summing to 1/2, not 1) constant yields `0`
produce constant prices `100` and yet the simulated value is `500`, not the
initial capital `1000`. -/
theorem claim_C6_cex :
    (∀ r ∈ [fun _ => (0 : ℚ), fun _ => (0 : ℚ)], ∀ b : String, r b = 0) ∧
    simulate_bond_index 1000 ["1Y"] (prices_df [fun _ => 0, fun _ => 0])
        (fun _ => 1 / 2) 0 = [500] ∧
    (500 : ℚ) ≠ 1000 := by
  refine ⟨by simp, ?_, by norm_num⟩
  simp [prices_df, bond_price, durations, simulate_bond_index, simSteps, simStep,
    stepValue, stepTurnover, desiredHoldings, initHoldings]
  norm_num

/-- C6 amended: if every yield series is constant over the window (with
discount base nonzero, i.e. yield level not `-100`) and the weights sum
to 1, then every derived bond price is constant over the window and every
simulated portfolio value equals the initial capital, for any
transaction-cost rate.  (As stated the claim fails for weights not summing
to 1: see the counterexample.) -/
theorem claim_C6 : ∀ (init tc : ℚ) (bonds : List String) (w y0 : Row)
    (yrows : List Row),
    (bonds.map w).sum = 1 →
    (∀ b ∈ bonds, 1 + y0 b / 100 ≠ 0) →
    (∀ r ∈ yrows, ∀ b ∈ bonds, r b = y0 b) →
    (∀ pr ∈ prices_df yrows, ∀ b ∈ bonds,
        pr b = bond_price (y0 b) (durations b)) ∧
    (∀ v ∈ simulate_bond_index init bonds (prices_df yrows) w tc, v = init) := by
  intro init tc bonds w y0 yrows hw hy hconst
  have hcell : ∀ pr ∈ prices_df yrows, ∀ b ∈ bonds,
      pr b = bond_price (y0 b) (durations b) := by
    intro pr hpr b hb
    rw [prices_df, List.mem_map] at hpr
    obtain ⟨r, hr, hpr⟩ := hpr
    rw [← hpr]
    show bond_price (r b) (durations b) = bond_price (y0 b) (durations b)
    rw [hconst r hr b hb]
  refine ⟨hcell, ?_⟩
  have hpnz : ∀ b ∈ bonds, bond_price (y0 b) (durations b) ≠ 0 := by
    intro b hb
    unfold bond_price
    exact div_ne_zero (by norm_num) (pow_ne_zero _ (hy b hb))
  cases hpd : prices_df yrows with
  | nil => intro v hv; rw [simulate_bond_index] at hv; simp at hv
  | cons p0 prest =>
    intro v hv
    rw [simulate_bond_index] at hv
    have hp0 : p0 ∈ prices_df yrows := by rw [hpd]; simp
    have hprest : ∀ r ∈ prest, r ∈ prices_df yrows := by
      intro r hr; rw [hpd]; simp [hr]
    refine simSteps_const_aux bonds w tc
      (fun b => bond_price (y0 b) (durations b)) init hw hpnz prest
      (initHoldings init w p0) ?_ ?_ v hv
    · intro r hr b hb
      exact hcell r (hprest r hr) b hb
    · intro b hb
      show init * w b / p0 b = init * w b / bond_price (y0 b) (durations b)
      rw [hcell p0 hp0 b hb]

/-- Witness for the amended C6: one maturity, constant yield 0, weight 1. -/
theorem claim_C6_witness :
    (∀ pr ∈ prices_df [fun _ => 0, fun _ => 0], ∀ b ∈ ["1Y"],
        pr b = bond_price ((fun _ : String => (0 : ℚ)) b) (durations b)) ∧
    (∀ v ∈ simulate_bond_index 1000 ["1Y"] (prices_df [fun _ => 0, fun _ => 0])
        (fun _ => 1) (1 / 1000), v = 1000) :=
  claim_C6 1000 (1 / 1000) ["1Y"] (fun _ => 1) (fun _ => 0)
    [fun _ => 0, fun _ => 0] (by norm_num) (by norm_num)
    (by
      intro r hr b _
      rcases List.mem_cons.mp hr with h | h
      · rw [h]
      · rw [List.mem_singleton.mp h])

/-! Benchmark-normalizer lemmas (C7). -/

theorem cumprod_length (l : List ℚ) : ∀ acc : ℚ, (cumprod acc l).length = l.length := by
  induction l with
  | nil => intro acc; rfl
  | cons x xs ih => intro acc; simp [cumprod, ih]

theorem pct_change_length (l : List ℚ) : (pct_change l).length = l.length - 1 := by
  rw [pct_change, List.length_map, List.length_zip, List.length_tail]
  omega

theorem pct_change_cons₂ (a b : ℚ) (t : List ℚ) :
    pct_change (a :: b :: t) = (b / a - 1) :: pct_change (b :: t) := rfl

theorem pct_change_getD (l : List ℚ) : ∀ j, j + 1 < l.length →
    (pct_change l).getD j 0 = l.getD (j + 1) 0 / l.getD j 0 - 1 := by
  induction l with
  | nil => intro j hj; simp at hj
  | cons a xs ih =>
    intro j hj
    match xs, j with
    | [], _ => simp at hj
    | b :: t, 0 => rfl
    | b :: t, k + 1 =>
      rw [pct_change_cons₂, List.getD_cons_succ, List.getD_cons_succ, List.getD_cons_succ]
      exact ih k (by simpa using hj)

theorem cumprod_getD (l : List ℚ) : ∀ (acc : ℚ) (k : ℕ), k < l.length →
    (cumprod acc l).getD k 0 = acc * (l.take (k + 1)).prod := by
  induction l with
  | nil => intro acc k hk; simp at hk
  | cons x xs ih =>
    intro acc k hk
    match k with
    | 0 => simp [cumprod]
    | k + 1 =>
      rw [cumprod, List.getD_cons_succ, ih (acc * x) k (by simpa using hk),
        List.take_succ_cons, List.prod_cons]
      ring

theorem sp500_index_length (init : ℚ) (l : List ℚ) :
    (sp500_index init l).length = l.length - 1 := by
  rw [sp500_index, List.length_map, cumprod_length, List.length_map, pct_change_length]

theorem sp500_index_getD (init : ℚ) (l : List ℚ) (k : ℕ) (hk : k < l.length - 1) :
    (sp500_index init l).getD k 0
      = init * (((pct_change l).take (k + 1)).map (fun r => 1 + r)).prod := by
  have hk₁ : k < ((pct_change l).map (fun r => 1 + r)).length := by
    rw [List.length_map, pct_change_length]; exact hk
  have hk₂ : k < (cumprod 1 ((pct_change l).map (fun r => 1 + r))).length := by
    rw [cumprod_length]; exact hk₁
  have hk₃ : k < (sp500_index init l).length := by rw [sp500_index_length]; exact hk
  rw [sp500_index, List.getD_eq_getElem _ _ (by rw [List.length_map]; exact hk₂),
    List.getElem_map, ← List.getD_eq_getElem _ 0 hk₂,
    cumprod_getD _ 1 k hk₁, one_mul, List.map_take]
  ring

/-- C7: for every benchmark series with at least two nonzero entries, the
normalizer output has length exactly `n - 1`; entry `j` of the return
series is `p_(j+1)/p_j - 1`; entry `k` of the output is the initial capital
times the cumulative product of `1 + r` over the first `k + 1` returns; and
the first output value is `initial_capital * (1 + r_1)`. -/
theorem claim_C7 : ∀ (init : ℚ) (l : List ℚ), 2 ≤ l.length → (∀ x ∈ l, x ≠ 0) →
    (sp500_index init l).length = l.length - 1 ∧
    (∀ j, j + 1 < l.length →
      (pct_change l).getD j 0 = l.getD (j + 1) 0 / l.getD j 0 - 1) ∧
    (∀ k, k < l.length - 1 →
      (sp500_index init l).getD k 0
        = init * (((pct_change l).take (k + 1)).map (fun r => 1 + r)).prod) ∧
    (sp500_index init l).getD 0 0 = init * (1 + (l.getD 1 0 / l.getD 0 0 - 1)) := by
  intro init l hlen _
  refine ⟨sp500_index_length init l, pct_change_getD l, fun k hk => sp500_index_getD init l k hk, ?_⟩
  rw [sp500_index_getD init l 0 (by omega)]
  have hne : (pct_change l).length ≠ 0 := by rw [pct_change_length]; omega
  cases hpc : pct_change l with
  | nil => rw [hpc] at hne; simp at hne
  | cons r rest =>
    have hr : r = l.getD 1 0 / l.getD 0 0 - 1 := by
      have := pct_change_getD l 0 (by omega)
      rw [hpc] at this
      simpa using this
    rw [List.take_succ_cons, List.take_zero, List.map_cons, List.map_nil,
      List.prod_cons, List.prod_nil, hr, mul_one]

/-- Witness for C7 at the series `[100, 110, 121]` with capital 1000. -/
theorem claim_C7_witness :
    (sp500_index 1000 [100, 110, 121]).length = ([100, 110, 121] : List ℚ).length - 1 ∧
    (∀ j, j + 1 < ([100, 110, 121] : List ℚ).length →
      (pct_change [100, 110, 121]).getD j 0
        = ([100, 110, 121] : List ℚ).getD (j + 1) 0 / ([100, 110, 121] : List ℚ).getD j 0 - 1) ∧
    (∀ k, k < ([100, 110, 121] : List ℚ).length - 1 →
      (sp500_index 1000 [100, 110, 121]).getD k 0
        = 1000 * (((pct_change [100, 110, 121]).take (k + 1)).map (fun r => 1 + r)).prod) ∧
    (sp500_index 1000 [100, 110, 121]).getD 0 0
      = 1000 * (1 + (([100, 110, 121] : List ℚ).getD 1 0 / ([100, 110, 121] : List ℚ).getD 0 0 - 1)) :=
  claim_C7 1000 [100, 110, 121] (by norm_num) (by norm_num)

/-! Fallible-run lemmas (C9). -/

theorem simStepsE_none_of_zero (bonds : List String) (w : Row) (tc : ℚ) :
    ∀ (rows : List Row) (h : Row), (∃ r ∈ rows, ∃ b ∈ bonds, r b = 0) →
      simStepsE bonds w tc h rows = none := by
  intro rows
  induction rows with
  | nil => intro h hz; simp at hz
  | cons p rest ih =>
    intro h hz
    rw [simStepsE]
    by_cases hp : ∀ b ∈ bonds, p b ≠ 0
    · rw [holdingsE, if_pos hp]
      have hz' : ∃ r ∈ rest, ∃ b ∈ bonds, r b = 0 := by
        rcases hz with ⟨r, hr, b, hb, hrb⟩
        rcases List.mem_cons.mp hr with h' | h'
        · exact absurd hrb (h' ▸ hp b hb)
        · exact ⟨r, h', b, hb, hrb⟩
      show ((simStepsE bonds w tc (fun b => stepValue bonds h p * w b / p b) rest).map
        (fun l => (stepValue bonds h p - stepTurnover bonds h
          (fun b => stepValue bonds h p * w b / p b) p * tc) :: l)) = none
      rw [ih _ hz']
      rfl
    · rw [holdingsE, if_neg hp]

theorem simStepsE_some_of_nonzero (bonds : List String) (w : Row) (tc : ℚ) :
    ∀ (rows : List Row) (h : Row), (∀ r ∈ rows, ∀ b ∈ bonds, r b ≠ 0) →
      ∃ lst, simStepsE bonds w tc h rows = some lst := by
  intro rows
  induction rows with
  | nil => intro h _; exact ⟨[], rfl⟩
  | cons p rest ih =>
    intro h hnz
    rw [simStepsE, holdingsE, if_pos (hnz p (by simp))]
    obtain ⟨lst, hlst⟩ := ih (fun b => stepValue bonds h p * w b / p b)
      (fun r hr => hnz r (by simp [hr]))
    have hmap : ((simStepsE bonds w tc (fun b => stepValue bonds h p * w b / p b) rest).map
        (fun l => (stepValue bonds h p - stepTurnover bonds h
          (fun b => stepValue bonds h p * w b / p b) p * tc) :: l))
        = some ((stepValue bonds h p - stepTurnover bonds h
          (fun b => stepValue bonds h p * w b / p b) p * tc) :: lst) := by
      rw [hlst]
      rfl
    exact ⟨_, hmap⟩

/-- C9 counterexample: the claim asserts a division error also for negative
prices, but a negative (nonzero) price divides without error: on the table
`[[100], [-50]]` the fallible run returns a value (`some [-500]`), it does
not fail. -/
theorem claim_C9_cex :
    (-50 : ℚ) < 0 ∧
    simulateE 1000 ["A"] (fun _ => 1) (1 / 1000) [fun _ => 100, fun _ => -50]
      = some [-500] := by
  refine ⟨by norm_num, ?_⟩
  norm_num [simulateE, holdingsE, simStepsE, stepValue, stepTurnover,
    desiredHoldings, List.forall_mem_cons]

/-- C9 amended: a price of exactly zero on a weighted maturity, in any row
touched by a run of at least two rows, makes `simulate_bond_index` fail with
an uncaught division error; prices that are merely negative (nonzero) do not
fail (see the counterexample); and `bond_price` at yield exactly `-100` with
positive duration divides by zero. -/
theorem claim_C9 :
    (∀ (init tc : ℚ) (bonds : List String) (w : Row) (p0 : Row) (rest : List Row),
      rest ≠ [] →
      ((∃ b ∈ bonds, p0 b = 0) ∨ ∃ r ∈ rest, ∃ b ∈ bonds, r b = 0) →
      simulateE init bonds w tc (p0 :: rest) = none) ∧
    (∀ (init tc : ℚ) (bonds : List String) (w : Row) (prices : List Row),
      (∀ r ∈ prices, ∀ b ∈ bonds, r b ≠ 0) →
      ∃ lst, simulateE init bonds w tc prices = some lst) ∧
    (∀ d : ℕ, 0 < d → bond_priceE (-100) d = none) := by
  refine ⟨?_, ?_, ?_⟩
  · intro init tc bonds w p0 rest hne hz
    cases rest with
    | nil => exact absurd rfl hne
    | cons r1 rest' =>
      rw [simulateE]
      by_cases hp0 : ∀ b ∈ bonds, p0 b ≠ 0
      · rw [holdingsE, if_pos hp0]
        have hz' : ∃ r ∈ r1 :: rest', ∃ b ∈ bonds, r b = 0 := by
          rcases hz with ⟨b, hb, hzb⟩ | h'
          · exact absurd hzb (hp0 b hb)
          · exact h'
        show simStepsE bonds w tc (fun b => init * w b / p0 b) (r1 :: rest') = none
        exact simStepsE_none_of_zero bonds w tc _ _ hz'
      · rw [holdingsE, if_neg hp0]
  · intro init tc bonds w prices hnz
    match prices with
    | [] => exact ⟨[], rfl⟩
    | [p] => exact ⟨[], rfl⟩
    | p0 :: r1 :: rest' =>
      rw [simulateE, holdingsE, if_pos (hnz p0 (by simp))]
      show ∃ lst, simStepsE bonds w tc (fun b => init * w b / p0 b) (r1 :: rest') = some lst
      exact simStepsE_some_of_nonzero bonds w tc (r1 :: rest') _
        (fun r hr => hnz r (List.mem_cons_of_mem p0 hr))
  · intro d hd
    rw [bond_priceE]
    show (if ((1 + (-100 : ℚ) / 100) ^ d) = 0 then none else _) = none
    rw [if_pos (by rw [show (1 + (-100 : ℚ) / 100) = 0 by norm_num, zero_pow (by omega)])]

/-- Witness for the amended C9: a zero price in row 0 aborts the run, an
all-nonzero table yields a value, and duration 5 at yield -100 divides by
zero. -/
theorem claim_C9_witness :
    simulateE 1000 ["A"] (fun _ => 1) (1 / 1000) [(fun _ => 0), fun _ => 110] = none ∧
    (∃ lst, simulateE 1000 ["A"] (fun _ => 1) (1 / 1000)
      [(fun _ => 100), fun _ => 110] = some lst) ∧
    bond_priceE (-100) 5 = none :=
  ⟨claim_C9.1 1000 (1 / 1000) ["A"] (fun _ => 1) (fun _ => 0) [fun _ => 110]
      (by simp) (Or.inl ⟨"A", by simp, rfl⟩),
   claim_C9.2.1 1000 (1 / 1000) ["A"] (fun _ => 1) [(fun _ => 100), fun _ => 110]
      (by norm_num),
   claim_C9.2.2 5 (by norm_num)⟩

/-! Resampling and alignment lemmas (C8). -/

theorem yieldsIndex_mem_forall (mo : ℕ → ℕ) (cols : List Obs) (m : ℕ)
    (hm : m ∈ yieldsIndex mo cols) : ∀ c ∈ cols, monthObs mo c m ≠ [] := by
  rw [yieldsIndex, List.mem_filter] at hm
  intro c hc
  have := List.all_eq_true.mp hm.2 c hc
  simpa [List.isEmpty_iff] using this

theorem yieldsIndex_mem_of_forall (mo : ℕ → ℕ) (cols : List Obs) (hc : cols ≠ [])
    (m : ℕ) (hall : ∀ c ∈ cols, monthObs mo c m ≠ []) : m ∈ yieldsIndex mo cols := by
  rw [yieldsIndex, List.mem_filter]
  constructor
  · rw [List.mem_dedup, List.mem_map]
    obtain ⟨c0, hc0⟩ : ∃ c, c ∈ cols := by
      cases cols with
      | nil => exact absurd rfl hc
      | cons a l => exact ⟨a, by simp⟩
    have h0 := hall c0 hc0
    rw [monthObs] at h0
    have hf : c0.filter (fun p => mo p.1 = m) ≠ [] := by
      intro he
      exact h0 (by rw [he]; rfl)
    obtain ⟨pr, hpr⟩ := List.exists_mem_of_ne_nil _ hf
    have hprc : pr ∈ c0 := List.mem_of_mem_filter hpr
    have hprm : mo pr.1 = m := by simpa using List.of_mem_filter hpr
    refine ⟨pr.1, ?_, hprm⟩
    rw [allDates, List.mem_flatten]
    exact ⟨c0.map Prod.fst, List.mem_map_of_mem _ hc0, List.mem_map_of_mem _ hprc⟩
  · rw [List.all_eq_true]
    intro c hc'
    simpa [List.isEmpty_iff] using hall c hc'

/-- C8: for a nonempty column list, the month index of the resampled yield
table holds exactly the months in which every yield series has at least one
observation; no surviving row carries a missing (`none`) cell; and the
benchmark, re-indexed by `.loc`, ends up on exactly that month index —
months absent from it are dropped from the benchmark no matter what the
benchmark observed. -/
theorem claim_C8 : ∀ (mo : ℕ → ℕ) (cols : List Obs) (s : Obs), cols ≠ [] →
    (∀ m, m ∈ yieldsIndex mo cols ↔ ∀ c ∈ cols, monthObs mo c m ≠ []) ∧
    (∀ row ∈ yields_table mo cols, ∀ v ∈ row.2, v ≠ none) ∧
    (restrictTo mo s (yieldsIndex mo cols)).map Prod.fst = yieldsIndex mo cols ∧
    (∀ m', m' ∉ yieldsIndex mo cols →
      ∀ pr ∈ restrictTo mo s (yieldsIndex mo cols), pr.1 ≠ m') := by
  intro mo cols s hc
  refine ⟨fun m => ⟨yieldsIndex_mem_forall mo cols m,
    yieldsIndex_mem_of_forall mo cols hc m⟩, ?_, ?_, ?_⟩
  · intro row hrow v hv
    rw [yields_table, List.mem_map] at hrow
    obtain ⟨m, hm, rfl⟩ := hrow
    rw [List.mem_map] at hv
    obtain ⟨c, hcin, rfl⟩ := hv
    have hobs := yieldsIndex_mem_forall mo cols m hm c hcin
    rw [monthMeanO]
    cases hobsEq : monthObs mo c m with
    | nil => exact absurd hobsEq hobs
    | cons a t => simp
  · rw [restrictTo, List.map_map]
    exact List.map_id _
  · intro m' hm' pr hpr
    rw [restrictTo, List.mem_map] at hpr
    obtain ⟨m, hm, rfl⟩ := hpr
    exact fun h => hm' (h ▸ hm)

/-- Witness for C8: two series observing months {0,1} and {1,2}; month 1 is
the only aligned month. -/
theorem claim_C8_witness :
    (∀ m, m ∈ yieldsIndex id [[(0, 1), (1, 2)], [(1, 5), (2, 6)]]
      ↔ ∀ c ∈ [[(0, 1), (1, 2)], [(1, 5), (2, 6)]], monthObs id c m ≠ []) ∧
    (∀ row ∈ yields_table id [[(0, 1), (1, 2)], [(1, 5), (2, 6)]],
      ∀ v ∈ row.2, v ≠ none) ∧
    (restrictTo id [(0, 7), (1, 8)]
        (yieldsIndex id [[(0, 1), (1, 2)], [(1, 5), (2, 6)]])).map Prod.fst
      = yieldsIndex id [[(0, 1), (1, 2)], [(1, 5), (2, 6)]] ∧
    (∀ m', m' ∉ yieldsIndex id [[(0, 1), (1, 2)], [(1, 5), (2, 6)]] →
      ∀ pr ∈ restrictTo id [(0, 7), (1, 8)]
        (yieldsIndex id [[(0, 1), (1, 2)], [(1, 5), (2, 6)]]), pr.1 ≠ m') :=
  claim_C8 id [[(0, 1), (1, 2)], [(1, 5), (2, 6)]] [(0, 7), (1, 8)]
    (List.cons_ne_nil _ _)

end BondIndex
